import Mathlib

/-!
# Verification of the BPF architecture support and the `qRegisterInfo` parser

Shallow embedding of:
* `gdbstub_arch/src/bpf/reg/bpf.rs` — `BpfRegs::{gdb_serialize, gdb_deserialize}`
* `gdbstub_arch/src/bpf/reg/id.rs` — `from_raw_id`
* `gdbstub_arch/src/bpf/mod.rs` — `BpfBreakpointKind::from_usize`
* `src/protocol/commands/_qRegisterInfo.rs` — `qRegisterInfo::from_packet`

Machine integers are modelled as `Nat` with explicit bounds; byte buffers as
`List Nat` whose elements are `< 256` where that matters.  The generic width
parameter `U` (either `u32` or `u64`) is modelled by its byte size
`ptrsize ∈ {4, 8}`.
-/

/-- The `BpfRegs<U>` register file: ten 64-bit general purpose registers,
a stack pointer and a program counter of the architecture's pointer width. -/
structure BpfRegs where
  r : List Nat
  sp : Nat
  pc : Nat
deriving DecidableEq, Repr

/-- `Default` for `BpfRegs<U>`: all registers zero. -/
def BpfRegs.default : BpfRegs := ⟨List.replicate 10 0, 0, 0⟩

/-- Little-endian byte encoding over `n` bytes, least significant byte first.
This models `u64::to_le_bytes` (with `n = 8`), and — modelled from the spec:
gdbstub's internal `LeBytes::to_le_bytes` codec is not under `src/`; per the
spec it is the width type's own little-endian byte codec writing exactly the
pointer-size number of bytes (`n = ptrsize`). -/
def to_le_bytes : Nat → Nat → List Nat
  | 0, _ => []
  | n + 1, v => v % 256 :: to_le_bytes n (v / 256)

/-- Little-endian byte decoding, least significant byte first.  Modelled from
the spec: gdbstub's internal `LeBytes::from_le_bytes` codec is not under
`src/`; per the spec it is the width type's little-endian byte codec. -/
def from_le_bytes : List Nat → Nat
  | [] => 0
  | b :: bs => b + 256 * from_le_bytes bs

/-- `u64::from_be_bytes`: big-endian decoding, most significant byte first. -/
def u64_from_be_bytes (l : List Nat) : Nat :=
  l.foldl (fun acc b => acc * 256 + b) 0

/-- The byte swap performed by decoding the little-endian encoding of a 64-bit
value as big-endian. -/
def bswap64 (v : Nat) : Nat := u64_from_be_bytes (to_le_bytes 8 v)

/-- Fuel-indexed worker for `chunksExact`; the fuel is an upper bound on the
list length, so the recursion is structural. -/
def chunksExactAux (k : Nat) : Nat → List Nat → List (List Nat)
  | 0, _ => []
  | fuel + 1, l =>
      if 0 < k ∧ k ≤ l.length then l.take k :: chunksExactAux k fuel (l.drop k)
      else []

/-- Rust's `slice::chunks_exact(k)`: the successive length-`k` chunks of the
list, discarding any partial chunk at the end. -/
def chunksExact (k : Nat) (l : List Nat) : List (List Nat) :=
  chunksExactAux k l.length l

/-- The `for reg in self.r.iter_mut() { *reg = regs.next().ok_or(())? }` loop:
overwrite the elements of `old` with the values of `vals` in order; if `vals`
runs out first the loop fails, leaving the remaining elements of `old` as they
were (partial mutation).  The `Bool` is `true` iff the loop completed. -/
def readInto : List Nat → List Nat → List Nat × Bool
  | [], _ => ([], true)
  | old, [] => (old, false)
  | _ :: os, v :: vs =>
      let p := readInto os vs
      (v :: p.1, p.2)

/-- The tail of `gdb_deserialize`: pull the stack pointer and program counter
from the decoded chunk values (`self.sp = regs.next().ok_or(())?` and likewise
for `pc`), with early return on a missing value. -/
def readSpPc (newR : List Nat) (self : BpfRegs) (vals : List Nat) : BpfRegs × Bool :=
  match vals with
  | spv :: pcv :: _ => (⟨newR, spv, pcv⟩, true)
  | [spv] => (⟨newR, spv, self.pc⟩, false)
  | [] => (⟨newR, self.sp, self.pc⟩, false)

/-- `BpfRegs::gdb_serialize`: write each general purpose register as eight
little-endian bytes, then the stack pointer and the program counter as
`ptrsize` little-endian bytes each. -/
def gdb_serialize (ptrsize : Nat) (regs : BpfRegs) : List Nat :=
  (regs.r.map (to_le_bytes 8)).flatten
    ++ to_le_bytes ptrsize regs.sp ++ to_le_bytes ptrsize regs.pc

/-- `BpfRegs::gdb_deserialize`, as state passing: `self` is the register file
being written into, the returned `Bool` is `true` on `Ok(())` and `false` on
`Err(())`.  The length check comes first; then `bytes[0..0x50]` is split into
eight-byte chunks decoded **big**-endian into the general purpose registers;
then `bytes[0x50..0x50 + 2*ptrsize]` is split into `ptrsize`-byte chunks
decoded little-endian into `sp` and `pc`.  (`List.take`/`List.drop` are total
where Rust slicing would bounds-check; on the path past the length check the
two agree.) -/
def gdb_deserialize (ptrsize : Nat) (self : BpfRegs) (bytes : List Nat) :
    BpfRegs × Bool :=
  if bytes.length < 8 * 10 + ptrsize * 2 then (self, false)
  else
    let res := readInto self.r ((chunksExact 8 (bytes.take 0x50)).map u64_from_be_bytes)
    if res.2 then
      readSpPc res.1 self
        ((chunksExact ptrsize ((bytes.take (0x50 + ptrsize * 2)).drop 0x50)).map
          from_le_bytes)
    else ({ self with r := res.1 }, false)

/-- The logical register identified by a wire index (`BpfRegId<U>`; the hidden
`_Size` phantom variant carries no data and is omitted). -/
inductive BpfRegId where
  | Gpr (n : Nat)
  | Sp
  | Pc
deriving DecidableEq, Repr

/-- `NonZeroUsize::new`. -/
def nonZeroUsizeNew (n : Nat) : Option Nat :=
  if n = 0 then none else some n

/-- `from_raw_id::<U>` from `gdbstub_arch/src/bpf/reg/id.rs`, with `ptrsize`
standing for `size_of::<U>()`. -/
def from_raw_id (ptrsize : Nat) (id : Nat) : Option (BpfRegId × Option Nat) :=
  if id ≤ 9 then
    match nonZeroUsizeNew 8 with
    | some w => some (BpfRegId.Gpr id, some w)
    | none => none
  else if id = 10 then
    match nonZeroUsizeNew ptrsize with
    | some w => some (BpfRegId.Sp, some w)
    | none => none
  else if id = 11 then
    match nonZeroUsizeNew ptrsize with
    | some w => some (BpfRegId.Pc, some w)
    | none => none
  else none

/-- BPF breakpoint kinds. -/
inductive BpfBreakpointKind where
  | BpfBpKindBrkpt
deriving DecidableEq, Repr

/-- `BpfBreakpointKind::from_usize`. -/
def BpfBreakpointKind.from_usize (kind : Nat) : Option BpfBreakpointKind :=
  match kind with
  | 0 => some BpfBreakpointKind.BpfBpKindBrkpt
  | _ => none

/-- The `qRegisterInfo` command: carries the parsed register number. -/
structure qRegisterInfo where
  reg_num : Nat
deriving DecidableEq, Repr

/-- Outcome of `qRegisterInfo::from_packet`: a parsed command (`Some`), the
invalid/unsupported outcome (`None`), or an unhandled failure (a reached
`.unwrap()` on an error value). -/
inductive FromPacketResult where
  | ok (cmd : qRegisterInfo)
  | invalid
  | panicked
deriving DecidableEq, Repr

/-- `char::to_digit(16)` on a character code: the value of a hexadecimal
digit `0-9`, `a-f`, `A-F`. -/
def hexDigitVal (c : Nat) : Option Nat :=
  if 48 ≤ c ∧ c ≤ 57 then some (c - 48)
  else if 97 ≤ c ∧ c ≤ 102 then some (c - 87)
  else if 65 ≤ c ∧ c ≤ 70 then some (c - 55)
  else none

/-- Digit-accumulation loop of `u8::from_str_radix(_, 16)`: checked
multiply-and-add (positive sign) or multiply-and-subtract (negative sign) on a
`u8` accumulator; any non-digit or out-of-range step is an error (`none`). -/
def u8RadixGo (neg : Bool) : List Nat → Nat → Option Nat
  | [], acc => some acc
  | c :: cs, acc =>
      match hexDigitVal c with
      | none => none
      | some d =>
          if neg then
            if acc * 16 ≤ 255 ∧ d ≤ acc * 16 then u8RadixGo neg cs (acc * 16 - d)
            else none
          else
            if acc * 16 + d ≤ 255 then u8RadixGo neg cs (acc * 16 + d)
            else none

/-- `u8::from_str_radix(s, 16)` on the byte string `s`: an optional leading
sign (`+` is 43, `-` is 45) followed by at least one hexadecimal digit. -/
def u8_from_str_radix_16 (s : List Nat) : Option Nat :=
  match s with
  | [] => none
  | c :: rest =>
      if c = 43 then (if rest = [] then none else u8RadixGo false rest 0)
      else if c = 45 then (if rest = [] then none else u8RadixGo true rest 0)
      else u8RadixGo false (c :: rest) 0

/-- `qRegisterInfo::from_packet` on the packet body.  An empty body returns
`None` (invalid).  Otherwise the body is parsed with
`u8::from_str_radix(core::str::from_utf8(body).unwrap(), 16).unwrap()`: a
parse error reaches the `.unwrap()` and is an unhandled failure.
(`from_utf8` is modelled as the identity on the byte list: sign and digit
characters are single-byte ASCII, and every byte of a non-ASCII or invalid
UTF-8 sequence fails `hexDigitVal`, so the invalid-UTF-8 `.unwrap()` failure
and the non-digit `.unwrap()` failure both land in `panicked`.) -/
def qRegisterInfo.from_packet (body : List Nat) : FromPacketResult :=
  if body = [] then FromPacketResult.invalid
  else
    match u8_from_str_radix_16 body with
    | some n => FromPacketResult.ok ⟨n⟩
    | none => FromPacketResult.panicked

/-! ## Byte-codec lemmas -/

theorem length_to_le_bytes (n v : Nat) : (to_le_bytes n v).length = n := by
  induction n generalizing v with
  | zero => rfl
  | succ n ih => simp [to_le_bytes, ih]

theorem to_le_bytes_lt (n v : Nat) : ∀ b ∈ to_le_bytes n v, b < 256 := by
  induction n generalizing v with
  | zero => simp [to_le_bytes]
  | succ n ih =>
      intro b hb
      rcases List.mem_cons.mp hb with rfl | hb
      · exact Nat.mod_lt _ (by norm_num)
      · exact ih (v / 256) b hb

theorem from_le_to_le (n v : Nat) : from_le_bytes (to_le_bytes n v) = v % 256 ^ n := by
  induction n generalizing v with
  | zero => simp [to_le_bytes, from_le_bytes, Nat.mod_one]
  | succ n ih =>
      rw [to_le_bytes, from_le_bytes, ih, pow_succ, mul_comm (256 ^ n) 256, Nat.mod_mul]

theorem to_le_from_le (l : List Nat) (hb : ∀ b ∈ l, b < 256) :
    to_le_bytes l.length (from_le_bytes l) = l := by
  induction l with
  | nil => rfl
  | cons b bs ih =>
      have hb0 : b < 256 := hb b (List.mem_cons_self b bs)
      have hbs : ∀ x ∈ bs, x < 256 := fun x hx => hb x (List.mem_cons_of_mem b hx)
      have h1 : (b + 256 * from_le_bytes bs) % 256 = b := by
        rw [Nat.add_mul_mod_self_left, Nat.mod_eq_of_lt hb0]
      have h2 : (b + 256 * from_le_bytes bs) / 256 = from_le_bytes bs := by
        rw [Nat.add_mul_div_left _ _ (by norm_num : (0:Nat) < 256),
          Nat.div_eq_of_lt hb0, Nat.zero_add]
      simp only [List.length_cons, to_le_bytes, from_le_bytes, h1, h2, ih hbs]

theorem from_le_bytes_snoc (xs : List Nat) (b : Nat) :
    from_le_bytes (xs ++ [b]) = from_le_bytes xs + 256 ^ xs.length * b := by
  induction xs with
  | nil => simp [from_le_bytes]
  | cons a as ih =>
      show a + 256 * from_le_bytes (as ++ [b])
        = a + 256 * from_le_bytes as + 256 ^ (as.length + 1) * b
      rw [ih, pow_succ]
      ring

theorem foldl_be_aux (l : List Nat) (acc : Nat) :
    l.foldl (fun a b => a * 256 + b) acc
      = acc * 256 ^ l.length + from_le_bytes l.reverse := by
  induction l generalizing acc with
  | nil => simp [from_le_bytes]
  | cons b bs ih =>
      simp only [List.foldl_cons, List.reverse_cons, List.length_cons]
      rw [ih, from_le_bytes_snoc, List.length_reverse, pow_succ]
      ring

theorem u64_from_be_bytes_eq_rev (l : List Nat) :
    u64_from_be_bytes l = from_le_bytes l.reverse := by
  rw [u64_from_be_bytes, foldl_be_aux]
  simp

/-! ## `chunksExact` lemmas -/

theorem chunksExactAux_nil (k f : Nat) : chunksExactAux k f [] = [] := by
  cases f with
  | zero => rfl
  | succ f =>
      simp only [chunksExactAux, List.length_nil]
      rw [if_neg (by omega)]

theorem chunksExactAux_flatten (k : Nat) (hk : 0 < k) (L : List (List Nat))
    (hL : ∀ a ∈ L, a.length = k) :
    ∀ f : Nat, L.flatten.length ≤ f → chunksExactAux k f L.flatten = L := by
  induction L with
  | nil => intro f _; simpa using chunksExactAux_nil k f
  | cons a L ih =>
      intro f hf
      have ha : a.length = k := hL a (List.mem_cons_self a L)
      have hL' : ∀ b ∈ L, b.length = k := fun b hb => hL b (List.mem_cons_of_mem a hb)
      rw [List.flatten_cons] at hf ⊢
      have hlen : (a ++ L.flatten).length = k + L.flatten.length := by
        rw [List.length_append, ha]
      cases f with
      | zero => omega
      | succ f =>
          simp only [chunksExactAux]
          rw [if_pos ⟨hk, by omega⟩]
          have ht : (a ++ L.flatten).take k = a := by
            rw [← ha, List.take_left]
          have hd : (a ++ L.flatten).drop k = L.flatten := by
            rw [← ha, List.drop_left]
          rw [ht, hd, ih hL' f (by omega)]

theorem chunksExact_flatten (k : Nat) (hk : 0 < k) (L : List (List Nat))
    (hL : ∀ a ∈ L, a.length = k) : chunksExact k L.flatten = L :=
  chunksExactAux_flatten k hk L hL L.flatten.length (le_refl _)

theorem chunksExactAux_length (k : Nat) (hk : 0 < k) :
    ∀ (f : Nat) (l : List Nat), l.length ≤ f →
      (chunksExactAux k f l).length = l.length / k := by
  intro f
  induction f with
  | zero =>
      intro l hl
      have : l = [] := List.eq_nil_of_length_eq_zero (by omega)
      subst this
      simp [chunksExactAux]
  | succ f ih =>
      intro l hl
      by_cases hc : k ≤ l.length
      · simp only [chunksExactAux]
        rw [if_pos ⟨hk, hc⟩, List.length_cons,
          ih (l.drop k) (by rw [List.length_drop]; omega), List.length_drop]
        exact (Nat.div_eq_sub_div hk hc).symm
      · simp only [chunksExactAux]
        rw [if_neg (fun h => hc h.2), List.length_nil,
          Nat.div_eq_of_lt (by omega)]

theorem chunksExact_length (k : Nat) (hk : 0 < k) (l : List Nat) :
    (chunksExact k l).length = l.length / k :=
  chunksExactAux_length k hk l.length l (le_refl _)

theorem chunksExactAux_mem (k : Nat) :
    ∀ (f : Nat) (l a : List Nat), a ∈ chunksExactAux k f l →
      a.length = k ∧ ∀ x ∈ a, x ∈ l := by
  intro f
  induction f with
  | zero => intro l a ha; simp [chunksExactAux] at ha
  | succ f ih =>
      intro l a ha
      simp only [chunksExactAux] at ha
      by_cases hc : 0 < k ∧ k ≤ l.length
      · rw [if_pos hc] at ha
        rcases List.mem_cons.mp ha with rfl | h
        · refine ⟨?_, fun x hx => List.take_subset k l hx⟩
          rw [List.length_take]
          omega
        · obtain ⟨h1, h2⟩ := ih (l.drop k) a h
          exact ⟨h1, fun x hx => List.drop_subset k l (h2 x hx)⟩
      · rw [if_neg hc] at ha
        simp at ha

theorem chunksExact_mem (k : Nat) (l a : List Nat) (ha : a ∈ chunksExact k l) :
    a.length = k ∧ ∀ x ∈ a, x ∈ l :=
  chunksExactAux_mem k l.length l a ha

theorem flatten_length_uniform (k : Nat) (L : List (List Nat))
    (hL : ∀ a ∈ L, a.length = k) : L.flatten.length = k * L.length := by
  induction L with
  | nil => simp
  | cons a L ih =>
      rw [List.flatten_cons, List.length_append, hL a (List.mem_cons_self a L),
        ih (fun b hb => hL b (List.mem_cons_of_mem a hb)), List.length_cons]
      ring

/-! ## `readInto` lemmas -/

theorem readInto_eq (old vals : List Nat) (h : old.length = vals.length) :
    readInto old vals = (vals, true) := by
  induction old generalizing vals with
  | nil =>
      cases vals with
      | nil => rfl
      | cons v vs => simp at h
  | cons o os ih =>
      cases vals with
      | nil => simp at h
      | cons v vs => simp [readInto, ih vs (by simpa using h)]

/-! ## Behaviour of `gdb_deserialize` on sufficiently long buffers -/

theorem gdb_deserialize_spec (p : Nat) (hp : 0 < p) (w : BpfRegs) (hw : w.r.length = 10)
    (b : List Nat) (hlen : 8 * 10 + p * 2 ≤ b.length) :
    gdb_deserialize p w b =
      (⟨(chunksExact 8 (b.take 0x50)).map u64_from_be_bytes,
        from_le_bytes (((b.take (0x50 + p * 2)).drop 0x50).take p),
        from_le_bytes (((b.take (0x50 + p * 2)).drop 0x50).drop p)⟩, true) := by
  have hnlt : ¬ b.length < 8 * 10 + p * 2 := by omega
  have hvals : ((chunksExact 8 (b.take 0x50)).map u64_from_be_bytes).length = 10 := by
    rw [List.length_map, chunksExact_length 8 (by norm_num), List.length_take]
    have : min 0x50 b.length = 0x50 := by omega
    rw [this]
  have hread : readInto w.r ((chunksExact 8 (b.take 0x50)).map u64_from_be_bytes)
      = ((chunksExact 8 (b.take 0x50)).map u64_from_be_bytes, true) :=
    readInto_eq _ _ (by rw [hw, hvals])
  have htlen : ((b.take (0x50 + p * 2)).drop 0x50).length = p * 2 := by
    rw [List.length_drop, List.length_take]
    omega
  have ht1 : (((b.take (0x50 + p * 2)).drop 0x50).take p).length = p := by
    rw [List.length_take]
    omega
  have ht2 : (((b.take (0x50 + p * 2)).drop 0x50).drop p).length = p := by
    rw [List.length_drop]
    omega
  have hft : [((b.take (0x50 + p * 2)).drop 0x50).take p,
      ((b.take (0x50 + p * 2)).drop 0x50).drop p].flatten
      = (b.take (0x50 + p * 2)).drop 0x50 := by
    simp [List.take_append_drop]
  have hsplit : chunksExact p ((b.take (0x50 + p * 2)).drop 0x50)
      = [((b.take (0x50 + p * 2)).drop 0x50).take p,
         ((b.take (0x50 + p * 2)).drop 0x50).drop p] := by
    conv_lhs => rw [← hft]
    refine chunksExact_flatten p hp _ ?_
    intro a ha
    rcases List.mem_cons.mp ha with rfl | ha
    · exact ht1
    · rcases List.mem_cons.mp ha with rfl | ha
      · exact ht2
      · simp at ha
  simp only [gdb_deserialize, if_neg hnlt, hread, hsplit, List.map_cons, List.map_nil,
    readSpPc, if_true]

theorem map_u64_of_map_to_le (l : List Nat) :
    (l.map (to_le_bytes 8)).map u64_from_be_bytes = l.map bswap64 := by
  induction l with
  | nil => rfl
  | cons x xs ih => simp only [List.map_cons, ih, bswap64]

/-! ## C1: deserialize ∘ serialize -/

/-- C1 (counterexample): `gdb_deserialize(gdb_serialize(v))` does **not**
reproduce `v` exactly: with `R0 = 1` (all other registers zero) on `Bpf64`,
serialization writes `R0` little-endian but deserialization reads it back
big-endian, yielding `R0 = 0x0100000000000000 ≠ 1`. -/
theorem bpf_roundtrip_not_identity :
    (gdb_deserialize 8 (⟨[1, 0, 0, 0, 0, 0, 0, 0, 0, 0], 0, 0⟩ : BpfRegs)
        (gdb_serialize 8 ⟨[1, 0, 0, 0, 0, 0, 0, 0, 0, 0], 0, 0⟩)).1
      ≠ ⟨[1, 0, 0, 0, 0, 0, 0, 0, 0, 0], 0, 0⟩ := by decide

/-- C1 (amended): for both architectures (`ptrsize = 4` for `Bpf`, `8` for
`Bpf64`), `gdb_deserialize` applied to `gdb_serialize v` succeeds and
reproduces `sp` and `pc` exactly, but reproduces each general-purpose
register with its eight bytes reversed (`bswap64`); the roundtrip is the
identity exactly on register files whose general-purpose registers are fixed
points of the byte swap. -/
theorem bpf_deserialize_serialize_roundtrip (p : Nat) (hp : p = 4 ∨ p = 8)
    (w v : BpfRegs) (hw : w.r.length = 10) (hv : v.r.length = 10)
    (hsp : v.sp < 256 ^ p) (hpc : v.pc < 256 ^ p) :
    gdb_deserialize p w (gdb_serialize p v)
      = (⟨v.r.map bswap64, v.sp, v.pc⟩, true) := by
  have h0 : 0 < p := by rcases hp with rfl | rfl <;> norm_num
  have hJmem : ∀ a ∈ v.r.map (to_le_bytes 8), a.length = 8 := by
    intro a ha
    rcases List.mem_map.mp ha with ⟨x, _, rfl⟩
    exact length_to_le_bytes 8 x
  have hJlen : (v.r.map (to_le_bytes 8)).flatten.length = 80 := by
    rw [flatten_length_uniform 8 _ hJmem, List.length_map, hv]
  have hslen : (to_le_bytes p v.sp).length = p := length_to_le_bytes p v.sp
  have hplen : (to_le_bytes p v.pc).length = p := length_to_le_bytes p v.pc
  have hblen : (gdb_serialize p v).length = 8 * 10 + p * 2 := by
    rw [gdb_serialize, List.length_append, List.length_append, hJlen, hslen, hplen]
    ring
  rw [gdb_deserialize_spec p h0 w hw _ (le_of_eq hblen.symm)]
  have hser : gdb_serialize p v
      = (v.r.map (to_le_bytes 8)).flatten
          ++ (to_le_bytes p v.sp ++ to_le_bytes p v.pc) := by
    rw [gdb_serialize, List.append_assoc]
  have htake : (gdb_serialize p v).take 0x50 = (v.r.map (to_le_bytes 8)).flatten := by
    rw [hser]
    exact List.take_left' hJlen
  have htakeall : (gdb_serialize p v).take (0x50 + p * 2) = gdb_serialize p v :=
    List.take_of_length_le (by rw [hblen])
  have hdrop : (gdb_serialize p v).drop 0x50
      = to_le_bytes p v.sp ++ to_le_bytes p v.pc := by
    rw [hser]
    exact List.drop_left' hJlen
  have hr : (chunksExact 8 ((gdb_serialize p v).take 0x50)).map u64_from_be_bytes
      = v.r.map bswap64 := by
    rw [htake, chunksExact_flatten 8 (by norm_num) _ hJmem, map_u64_of_map_to_le]
  have hs1 : (to_le_bytes p v.sp ++ to_le_bytes p v.pc).take p = to_le_bytes p v.sp :=
    List.take_left' hslen
  have hs2 : (to_le_bytes p v.sp ++ to_le_bytes p v.pc).drop p = to_le_bytes p v.pc :=
    List.drop_left' hslen
  rw [hr, htakeall, hdrop, hs1, hs2, from_le_to_le, from_le_to_le,
    Nat.mod_eq_of_lt hsp, Nat.mod_eq_of_lt hpc]

/-- Witness for `bpf_deserialize_serialize_roundtrip` at `ptrsize = 8`. -/
theorem bpf_deserialize_serialize_roundtrip_witness :
    gdb_deserialize 8 BpfRegs.default
        (gdb_serialize 8 ⟨[1, 2, 3, 4, 5, 6, 7, 8, 9, 10], 0x1000, 0x2000⟩)
      = (⟨[1, 2, 3, 4, 5, 6, 7, 8, 9, 10].map bswap64, 0x1000, 0x2000⟩, true) :=
  bpf_deserialize_serialize_roundtrip 8 (Or.inr rfl) BpfRegs.default
    ⟨[1, 2, 3, 4, 5, 6, 7, 8, 9, 10], 0x1000, 0x2000⟩
    (by decide) (by decide) (by decide) (by decide)

/-! ## C2: serialize ∘ deserialize -/

theorem to_le_of_from_le (c : List Nat) (p : Nat) (hc : c.length = p)
    (hb : ∀ x ∈ c, x < 256) : to_le_bytes p (from_le_bytes c) = c := by
  rw [← hc]
  exact to_le_from_le c hb

theorem to_le_of_u64_be (c : List Nat) (hc : c.length = 8)
    (hb : ∀ x ∈ c, x < 256) : to_le_bytes 8 (u64_from_be_bytes c) = c.reverse := by
  rw [u64_from_be_bytes_eq_rev]
  exact to_le_of_from_le c.reverse 8 (by rw [List.length_reverse, hc])
    (fun x hx => hb x (List.mem_reverse.mp hx))

theorem map_to_le_of_map_u64 (L : List (List Nat))
    (hL : ∀ c ∈ L, c.length = 8 ∧ ∀ x ∈ c, x < 256) :
    (L.map u64_from_be_bytes).map (to_le_bytes 8) = L.map List.reverse := by
  induction L with
  | nil => rfl
  | cons c L ih =>
      obtain ⟨h1, h2⟩ := hL c (List.mem_cons_self c L)
      simp only [List.map_cons, to_le_of_u64_be c h1 h2,
        ih (fun d hd => hL d (List.mem_cons_of_mem c hd))]

/-- C2 (counterexample): `serialize(deserialize(b)) == b` fails for the
96-byte `Bpf64` buffer with first byte `1` and the rest zero: the first
eight-byte chunk comes back reversed. -/
theorem bpf_serialize_deserialize_not_identity :
    gdb_serialize 8 (gdb_deserialize 8 BpfRegs.default (1 :: List.replicate 95 0)).1
      ≠ 1 :: List.replicate 95 0 := by decide

/-- C2 (amended): for both architectures, on a buffer `b` of exactly the
expected length `80 + 2*ptrsize` (with byte-valued entries),
`gdb_serialize(gdb_deserialize(b))` reproduces the trailing `sp`/`pc` bytes
of `b` exactly but reproduces each eight-byte general-purpose chunk of `b`
**reversed**; the claimed identity holds only when every such chunk is a
palindrome. -/
theorem bpf_serialize_deserialize_chunks (p : Nat) (hp : p = 4 ∨ p = 8)
    (w : BpfRegs) (hw : w.r.length = 10) (b : List Nat)
    (hb : b.length = 8 * 10 + p * 2) (hbb : ∀ x ∈ b, x < 256) :
    gdb_serialize p (gdb_deserialize p w b).1
      = ((chunksExact 8 (b.take 0x50)).map List.reverse).flatten ++ b.drop 0x50 := by
  have h0 : 0 < p := by rcases hp with rfl | rfl <;> norm_num
  have htakeall : b.take (0x50 + p * 2) = b := List.take_of_length_le (by rw [hb])
  rw [gdb_deserialize_spec p h0 w hw b (le_of_eq hb.symm), htakeall]
  have hchunkmem : ∀ c ∈ chunksExact 8 (b.take 0x50),
      c.length = 8 ∧ ∀ x ∈ c, x < 256 := by
    intro c hc
    obtain ⟨h1, h2⟩ := chunksExact_mem 8 (b.take 0x50) c hc
    exact ⟨h1, fun x hx => hbb x (List.take_subset 0x50 b (h2 x hx))⟩
  have htlen : (b.drop 0x50).length = p * 2 := by
    rw [List.length_drop, hb]
    omega
  have ht1 : to_le_bytes p (from_le_bytes ((b.drop 0x50).take p))
      = (b.drop 0x50).take p :=
    to_le_of_from_le _ p (by rw [List.length_take]; omega)
      (fun x hx => hbb x (List.drop_subset 0x50 b (List.take_subset p _ hx)))
  have ht2 : to_le_bytes p (from_le_bytes ((b.drop 0x50).drop p))
      = (b.drop 0x50).drop p :=
    to_le_of_from_le _ p (by rw [List.length_drop]; omega)
      (fun x hx => hbb x (List.drop_subset 0x50 b (List.drop_subset p _ hx)))
  rw [gdb_serialize]
  simp only [map_to_le_of_map_u64 _ hchunkmem, ht1, ht2]
  rw [List.append_assoc, List.take_append_drop]

/-- Witness for `bpf_serialize_deserialize_chunks` at `ptrsize = 8` on the
96-byte buffer with first byte `1` and the rest zero. -/
theorem bpf_serialize_deserialize_chunks_witness :
    gdb_serialize 8 (gdb_deserialize 8 BpfRegs.default (1 :: List.replicate 95 0)).1
      = ((chunksExact 8 ((1 :: List.replicate 95 0).take 0x50)).map List.reverse).flatten
          ++ (1 :: List.replicate 95 0).drop 0x50 :=
  bpf_serialize_deserialize_chunks 8 (Or.inr rfl) BpfRegs.default (by decide)
    (1 :: List.replicate 95 0) (by decide) (by decide)

/-! ## C4: the Bpf64 scenario -/

/-- C4: on `Bpf64`, the register file with `R0..R9` all zero, `sp = 0x1000`
and `pc = 0x2000`, serialized and then deserialized, reproduces the original
value exactly (the zero registers are fixed points of the byte swap, and
`sp`/`pc` are written and read little-endian). -/
theorem bpf64_scenario_roundtrip :
    gdb_deserialize 8 BpfRegs.default
        (gdb_serialize 8 ⟨List.replicate 10 0, 0x1000, 0x2000⟩)
      = (⟨List.replicate 10 0, 0x1000, 0x2000⟩, true) := by decide

/-! ## C5: deserialization error exactly on short buffers -/

/-- C5: for both architectures, `gdb_deserialize` returns an error if and
only if the byte buffer is shorter than `80 + 2*ptrsize` (88 for `Bpf`, 96
for `Bpf64`); on every buffer of at least that length it succeeds. -/
theorem gdb_deserialize_err_iff_short (p : Nat) (hp : p = 4 ∨ p = 8)
    (w : BpfRegs) (hw : w.r.length = 10) (b : List Nat) :
    (gdb_deserialize p w b).2 = false ↔ b.length < 8 * 10 + p * 2 := by
  constructor
  · intro herr
    by_contra hlen
    have h0 : 0 < p := by rcases hp with rfl | rfl <;> norm_num
    rw [gdb_deserialize_spec p h0 w hw b (by omega)] at herr
    simp at herr
  · intro h
    simp only [gdb_deserialize]
    rw [if_pos h]

/-- Witness for `gdb_deserialize_err_iff_short` at `ptrsize = 8` on the
empty buffer. -/
theorem gdb_deserialize_err_iff_short_witness :
    (gdb_deserialize 8 BpfRegs.default []).2 = false
      ↔ ([] : List Nat).length < 8 * 10 + 8 * 2 :=
  gdb_deserialize_err_iff_short 8 (Or.inr rfl) BpfRegs.default (by decide) []

/-! ## C10: a failed deserialization leaves the register file unchanged -/

/-- C10: whenever `gdb_deserialize` returns an error, the register file is
left completely unmodified (the length check precedes any write, and past it
the operation cannot fail). -/
theorem gdb_deserialize_err_unchanged (p : Nat) (hp : p = 4 ∨ p = 8)
    (w : BpfRegs) (hw : w.r.length = 10) (b : List Nat)
    (herr : (gdb_deserialize p w b).2 = false) :
    (gdb_deserialize p w b).1 = w := by
  by_cases hlen : b.length < 8 * 10 + p * 2
  · simp only [gdb_deserialize]
    rw [if_pos hlen]
  · exfalso
    have h0 : 0 < p := by rcases hp with rfl | rfl <;> norm_num
    rw [gdb_deserialize_spec p h0 w hw b (by omega)] at herr
    simp at herr

/-- Witness for `gdb_deserialize_err_unchanged` at `ptrsize = 4` on a
three-byte buffer. -/
theorem gdb_deserialize_err_unchanged_witness :
    (gdb_deserialize 4 BpfRegs.default [1, 2, 3]).1 = BpfRegs.default :=
  gdb_deserialize_err_unchanged 4 (Or.inl rfl) BpfRegs.default (by decide)
    [1, 2, 3] (by decide)

/-! ## C6 and C7: the register-id map -/

/-- C6: `from_raw_id` (for both the `u32` and `u64` instantiations) is total
over the index range `[0, 12)`: every index `0..=11` yields a register with
a byte width, and every index `≥ 12` yields `none`. -/
theorem from_raw_id_total (p id : Nat) (hp : p = 4 ∨ p = 8) :
    (id < 12 → ∃ reg w, from_raw_id p id = some (reg, some w)) ∧
    (12 ≤ id → from_raw_id p id = none) := by
  have hp0 : p ≠ 0 := by rcases hp with rfl | rfl <;> norm_num
  constructor
  · intro h
    by_cases h9 : id ≤ 9
    · exact ⟨BpfRegId.Gpr id, 8, by simp [from_raw_id, nonZeroUsizeNew, h9]⟩
    · by_cases h10 : id = 10
      · subst h10
        exact ⟨BpfRegId.Sp, p, by simp [from_raw_id, nonZeroUsizeNew, hp0]⟩
      · have h11 : id = 11 := by omega
        subst h11
        exact ⟨BpfRegId.Pc, p, by simp [from_raw_id, nonZeroUsizeNew, hp0]⟩
  · intro h
    simp [from_raw_id, nonZeroUsizeNew, show ¬ id ≤ 9 by omega,
      show id ≠ 10 by omega, show id ≠ 11 by omega]

/-- Witness for `from_raw_id_total`: index 11 on the `u64` instantiation. -/
theorem from_raw_id_total_witness :
    ∃ reg w, from_raw_id 8 11 = some (reg, some w) :=
  (from_raw_id_total 8 11 (Or.inr rfl)).1 (by norm_num)

/-- C7: every general-purpose index `0..=9` is reported with the fixed byte
width 8, while the stack pointer (index 10) and program counter (index 11)
are reported with the architecture's pointer size (4 for the `u32`
instantiation, 8 for the `u64` one). -/
theorem from_raw_id_widths (p id : Nat) (hp : p = 4 ∨ p = 8) :
    (id ≤ 9 → from_raw_id p id = some (BpfRegId.Gpr id, some 8)) ∧
    from_raw_id p 10 = some (BpfRegId.Sp, some p) ∧
    from_raw_id p 11 = some (BpfRegId.Pc, some p) := by
  have hp0 : p ≠ 0 := by rcases hp with rfl | rfl <;> norm_num
  refine ⟨fun h9 => by simp [from_raw_id, nonZeroUsizeNew, h9], ?_, ?_⟩
  · simp [from_raw_id, nonZeroUsizeNew, hp0]
  · simp [from_raw_id, nonZeroUsizeNew, hp0]

/-- Witness for `from_raw_id_widths`: index 7 on the `u32` instantiation has
byte width 8. -/
theorem from_raw_id_widths_witness :
    from_raw_id 4 7 = some (BpfRegId.Gpr 7, some 8) :=
  (from_raw_id_widths 4 7 (Or.inl rfl)).1 (by norm_num)

/-! ## C9: breakpoint kinds -/

/-- C9: `BpfBreakpointKind::from_usize` returns a breakpoint kind exactly
for the input 0, and `none` for every other integer. -/
theorem bpf_breakpoint_kind_spec :
    BpfBreakpointKind.from_usize 0 = some BpfBreakpointKind.BpfBpKindBrkpt ∧
    ∀ k : Nat, k ≠ 0 → BpfBreakpointKind.from_usize k = none := by
  refine ⟨rfl, ?_⟩
  intro k hk
  cases k with
  | zero => exact absurd rfl hk
  | succ k => rfl

/-- Witness for `bpf_breakpoint_kind_spec` at input 5. -/
theorem bpf_breakpoint_kind_spec_witness :
    BpfBreakpointKind.from_usize 5 = none :=
  bpf_breakpoint_kind_spec.2 5 (by decide)

/-! ## C3 and C8: the qRegisterInfo parser -/

/-- C3 (code evidence): `qRegisterInfo::from_packet` on the non-hex body
`"zz"` (bytes `[0x7a, 0x7a]`) reaches the `.unwrap()` on the
`u8::from_str_radix` error — an unhandled failure, not the invalid outcome
the specification promises. -/
theorem qRegisterInfo_from_packet_zz_panics :
    qRegisterInfo.from_packet [122, 122] = FromPacketResult.panicked := by decide

/-- C8: `qRegisterInfo::from_packet` on the empty body returns the invalid
outcome (`None`), and on the body `"5"` (byte `0x35`) returns a command with
register index 5. -/
theorem qRegisterInfo_from_packet_examples :
    qRegisterInfo.from_packet [] = FromPacketResult.invalid ∧
    qRegisterInfo.from_packet [53] = FromPacketResult.ok ⟨5⟩ := by decide
